import Mathlib

/-!
Shallow embedding of the LSB steganography codec in `stego.py` and proofs
about it. Byte sequences are modelled as `List Nat` with each element below
256 (the contract of Python `bytes`); bit sequences are `List Nat` whose
elements are 0 or 1; the flattened pixel sample buffer is a `List Nat` of
unsigned 8-bit samples; file paths are modelled as their ASCII byte
sequences.
-/

set_option autoImplicit false
set_option maxRecDepth 8192

namespace Stego

/-! ### BitCodec -/

/-- Binary digits of `n`, most significant first, empty for `n = 0`
(the digit part of Python `bin(n)[2:]`). Fuel-based so that it is
structurally recursive; `fuel = n` always suffices. -/
def binDigitsFuel : Nat → Nat → List Nat
  | 0, _ => []
  | fuel + 1, n => if n = 0 then [] else binDigitsFuel fuel (n / 2) ++ [n % 2]

/-- Python `bin(n)[2:]` as a digit list: `bin(0)[2:] = "0"`. -/
def natToBin (n : Nat) : List Nat :=
  if n = 0 then [0] else binDigitsFuel n n

/-- Python `str.zfill(w)` on a digit list: pad with zeros on the left up to
width `w`. -/
def zfill (w : Nat) (l : List Nat) : List Nat :=
  List.replicate (w - l.length) 0 ++ l

/-- One byte's contribution in `bytes_to_bits`:
`bin(byte)[2:].zfill(8)` turned into a list of integers. -/
def byteToBits (b : Nat) : List Nat :=
  zfill 8 (natToBin b)

/-- `bytes_to_bits` from `stego.py`: for each byte append its 8-bit
zero-filled binary expansion to the output list. -/
def bytes_to_bits : List Nat → List Nat
  | [] => []
  | b :: rest => byteToBits b ++ bytes_to_bits rest

/-- Python `int("".join(map(str, bits)), 2)` for a list of 0/1 digits. -/
def bitsToByte (bits : List Nat) : Nat :=
  bits.foldl (fun a b => 2 * a + b) 0

/-- `bits_to_bytes` from `stego.py`: walk the bit list in chunks of 8,
convert each full chunk to a byte, and drop any incomplete trailing
chunk. -/
def bits_to_bytes : List Nat → List Nat
  | b0 :: b1 :: b2 :: b3 :: b4 :: b5 :: b6 :: b7 :: rest =>
      bitsToByte [b0, b1, b2, b3, b4, b5, b6, b7] :: bits_to_bytes rest
  | _ => []

/-- `END_FILE_MARKER = b'END!'` from `stego.py`. -/
def END_FILE_MARKER : List Nat := [69, 78, 68, 33]

/-- The separator byte `b'|'`. -/
def SEPARATOR : Nat := 124

/-- `marker_bits = bytes_to_bits(END_FILE_MARKER)` from `decode_file`. -/
def markerBits : List Nat := bytes_to_bits END_FILE_MARKER

example : byteToBits 97 = [0, 1, 1, 0, 0, 0, 0, 1] := by decide
example : byteToBits 0 = [0, 0, 0, 0, 0, 0, 0, 0] := by decide
example : bytes_to_bits [97] = [0, 1, 1, 0, 0, 0, 0, 1] := by decide
example : bits_to_bytes (bytes_to_bits [97, 255, 0]) = [97, 255, 0] := by decide
example : markerBits.length = 32 := by decide

/-! ### Embedder (`encode_file`) -/

/-- Errors with which `encode_file` returns `False`. The missing-secret-file
case is filesystem I/O, outside the pixel-level model. -/
inductive EncodeErr where
  | unsupportedFormat
  | capacityExceeded
  deriving DecidableEq, Repr

/-- Result of `encode_file`: on success the modified flattened pixel buffer
that is reshaped and saved; on failure the function returns `False` without
producing any buffer. -/
inductive EncodeResult where
  | ok (pixels : List Nat)
  | fail (e : EncodeErr)
  deriving DecidableEq, Repr

/-- Python `str.lower()` restricted to the ASCII byte model of a path. -/
def lowerByte (c : Nat) : Nat :=
  if 65 ≤ c ∧ c ≤ 90 then c + 32 else c

/-- The last `n` elements of a list, Python `l[-n:]` (for `n ≤ l.length`;
for longer `n` both give the whole list). -/
def lastN (n : Nat) (l : List Nat) : List Nat :=
  l.drop (l.length - n)

/-- Python `s.endswith(suffix)` on the byte model of strings. -/
def endsWithList (s suffix : List Nat) : Bool :=
  lastN suffix.length s == suffix

/-- ASCII bytes of `".png"`. -/
def pngExt : List Nat := [46, 112, 110, 103]

/-- ASCII bytes of `".bmp"`. -/
def bmpExt : List Nat := [46, 98, 109, 112]

/-- `path.lower().endswith(('.png', '.bmp'))` from line 83 of `stego.py`. -/
def allowedExt (path : List Nat) : Bool :=
  endsWithList (path.map lowerByte) pngExt || endsWithList (path.map lowerByte) bmpExt

/-- The payload layout built at line 104 of `stego.py`:
`file_name + b'|' + secret_data_bytes + END_FILE_MARKER`. -/
def buildPayload (fileName secretData : List Nat) : List Nat :=
  fileName ++ [SEPARATOR] ++ secretData ++ END_FILE_MARKER

/-- The embedding loop of `encode_file` (lines 130-158): for each message
bit, clear the LSB of the corresponding sample with `& 0b11111110`, then
`|=` the bit in; samples beyond the message are untouched. -/
def embedBits : List Nat → List Nat → List Nat
  | pixels, [] => pixels
  | [], _ :: _ => []
  | p :: ps, b :: bs => ((p &&& 254) ||| b) :: embedBits ps bs

/-- Steps 4-5 of `encode_file`: the capacity check (`len(message_bits) >
data.size` fails) followed by the embedding loop. The check precedes any
write, so a capacity failure carries no pixel buffer at all. -/
def encodeCore (pixels payload : List Nat) : EncodeResult :=
  let messageBits := bytes_to_bits payload
  if messageBits.length > pixels.length then .fail .capacityExceeded
  else .ok (embedBits pixels messageBits)

/-- `encode_file` at the pixel level: the extension check of line 83
(which rejects only when NEITHER path ends in `.png`/`.bmp`), then payload
construction, capacity check and embedding. File reading and image I/O are
external; the secret file's basename bytes and content bytes are passed
directly. -/
def encode_file (imagePath outputImagePath fileName secretData pixels : List Nat) :
    EncodeResult :=
  if !(allowedExt imagePath || allowedExt outputImagePath) then
    .fail .unsupportedFormat
  else
    encodeCore pixels (buildPayload fileName secretData)

/-! ### Extractor (`decode_file`) -/

/-- Errors with which `decode_file` returns `False`. -/
inductive DecodeErr where
  | markerNotFound
  | corruptPayload
  deriving DecidableEq, Repr

/-- Result of `decode_file`: `ok` carries the filename bytes (the UTF-8
encoding of the decoded string) and content bytes written to disk; `fail`
models a `return False`; `exn` models an exception that escapes the
function (the uncaught `UnicodeDecodeError` of line 234). -/
inductive DecodeResult where
  | ok (fileName fileData : List Nat)
  | fail (e : DecodeErr)
  | exn
  deriving DecidableEq, Repr

/-- The scan loop of `decode_file` (lines 204-214) with the bits collected
so far as accumulator: append each sample's LSB, and once at least 32 bits
are collected compare the last 32 against `marker_bits`; on a match return
the collected bits with the marker removed, on exhaustion return none. -/
def scanAux : List Nat → List Nat → Option (List Nat)
  | _, [] => none
  | acc, p :: ps =>
      let acc2 := acc ++ [p &&& 1]
      if 32 ≤ acc2.length ∧ lastN 32 acc2 = markerBits then
        some (acc2.take (acc2.length - 32))
      else scanAux acc2 ps

/-- The full marker scan, starting from an empty `secret_bits` list. -/
def scanForMarker (pixels : List Nat) : Option (List Nat) :=
  scanAux [] pixels

/-- Python `bytes.index(sep)` as an option: index of the first occurrence. -/
def firstIdx : List Nat → Nat → Option Nat
  | [], _ => none
  | b :: bs, t => if b = t then some 0 else (firstIdx bs t).map (· + 1)

/-- Whether a byte is a UTF-8 continuation byte (`0x80`-`0xBF`). -/
def isCont (b : Nat) : Bool :=
  128 ≤ b && b ≤ 191

/-- Validity of a byte sequence under Python's strict UTF-8 decoder
(RFC 3629: no overlong forms, no surrogates, max `U+10FFFF`); this is the
condition under which `bytes.decode('utf-8')` at line 234 succeeds. -/
def utf8Valid : List Nat → Bool
  | [] => true
  | b :: rest =>
    if b ≤ 127 then utf8Valid rest
    else if 194 ≤ b ∧ b ≤ 223 then
      match rest with
      | c1 :: rest2 => isCont c1 && utf8Valid rest2
      | [] => false
    else if b = 224 then
      match rest with
      | c1 :: c2 :: rest2 =>
          (160 ≤ c1 && c1 ≤ 191) && isCont c2 && utf8Valid rest2
      | _ => false
    else if (225 ≤ b ∧ b ≤ 236) ∨ (238 ≤ b ∧ b ≤ 239) then
      match rest with
      | c1 :: c2 :: rest2 => isCont c1 && isCont c2 && utf8Valid rest2
      | _ => false
    else if b = 237 then
      match rest with
      | c1 :: c2 :: rest2 =>
          (128 ≤ c1 && c1 ≤ 159) && isCont c2 && utf8Valid rest2
      | _ => false
    else if b = 240 then
      match rest with
      | c1 :: c2 :: c3 :: rest2 =>
          (144 ≤ c1 && c1 ≤ 191) && isCont c2 && isCont c3 && utf8Valid rest2
      | _ => false
    else if 241 ≤ b ∧ b ≤ 243 then
      match rest with
      | c1 :: c2 :: c3 :: rest2 =>
          isCont c1 && isCont c2 && isCont c3 && utf8Valid rest2
      | _ => false
    else if b = 244 then
      match rest with
      | c1 :: c2 :: c3 :: rest2 =>
          (128 ≤ c1 && c1 ≤ 143) && isCont c2 && isCont c3 && utf8Valid rest2
      | _ => false
    else false

/-- Steps 3-4 of `decode_file` (lines 224-248): find the first separator
byte (a `ValueError` from `index` is caught and returns `False`), then
decode the filename bytes as UTF-8 — this call sits OUTSIDE the
`try`/`except`, so an invalid filename raises an uncaught
`UnicodeDecodeError` (`exn`) — and on success write the content after the
separator. -/
def parsePayload (payloadBytes : List Nat) : DecodeResult :=
  match firstIdx payloadBytes SEPARATOR with
  | none => .fail .corruptPayload
  | some idx =>
      if utf8Valid (payloadBytes.take idx) then
        .ok (payloadBytes.take idx) (payloadBytes.drop (idx + 1))
      else .exn

/-- `decode_file` at the pixel level: scan the LSB stream for the end
marker (exhaustion returns `False` with the marker-not-found diagnostic),
then convert the payload bits to bytes and split filename from data. -/
def decode_file (pixels : List Nat) : DecodeResult :=
  match scanForMarker pixels with
  | none => .fail .markerNotFound
  | some payloadBits => parsePayload (bits_to_bytes payloadBits)

example : decode_file (bytes_to_bits [97, 124, 98, 69, 78, 68, 33]) =
    .ok [97] [98] := by decide

/-! ### BitCodec lemmas -/

/-- Specification-side definition (from the spec's words, for comparison
with the source's `byteToBits`): the 8-bit most-significant-bit-first
binary expansion of a byte. -/
def specByteBitsMSB (b : Nat) : List Nat :=
  (List.range 8).map (fun k => b / 2 ^ (7 - k) % 2)

theorem byteToBits_eq_spec_fin : ∀ b : Fin 256,
    byteToBits b.val = specByteBitsMSB b.val := by decide

theorem byteToBits_eq_spec (b : Nat) (hb : b < 256) :
    byteToBits b = specByteBitsMSB b :=
  byteToBits_eq_spec_fin ⟨b, hb⟩

theorem specByteBitsMSB_length (b : Nat) : (specByteBitsMSB b).length = 8 := by
  simp [specByteBitsMSB]

theorem byteToBits_length (b : Nat) (hb : b < 256) : (byteToBits b).length = 8 := by
  rw [byteToBits_eq_spec b hb, specByteBitsMSB_length]

theorem byteToBits_lt_two_fin : ∀ b : Fin 256, ∀ x ∈ byteToBits b.val, x < 2 := by
  decide

theorem bitsToByte_byteToBits_fin : ∀ b : Fin 256,
    bitsToByte (byteToBits b.val) = b.val := by decide

theorem bitsToByte_byteToBits (b : Nat) (hb : b < 256) :
    bitsToByte (byteToBits b) = b :=
  bitsToByte_byteToBits_fin ⟨b, hb⟩

theorem bytes_to_bits_append (a c : List Nat) :
    bytes_to_bits (a ++ c) = bytes_to_bits a ++ bytes_to_bits c := by
  induction a with
  | nil => rfl
  | cons b rest ih => simp [bytes_to_bits, ih]

theorem bytes_to_bits_length (B : List Nat) (hB : ∀ b ∈ B, b < 256) :
    (bytes_to_bits B).length = 8 * B.length := by
  induction B with
  | nil => rfl
  | cons b rest ih =>
      have hb : b < 256 := hB b (List.mem_cons_self b rest)
      have hrest : ∀ x ∈ rest, x < 256 := fun x hx => hB x (List.mem_cons_of_mem _ hx)
      simp only [bytes_to_bits, List.length_append, byteToBits_length b hb, ih hrest,
        List.length_cons]
      omega

theorem bytes_to_bits_lt_two (B : List Nat) (hB : ∀ b ∈ B, b < 256) :
    ∀ x ∈ bytes_to_bits B, x < 2 := by
  induction B with
  | nil => intro x hx; cases hx
  | cons b rest ih =>
      intro x hx
      have hb : b < 256 := hB b (List.mem_cons_self b rest)
      have hrest : ∀ y ∈ rest, y < 256 := fun y hy => hB y (List.mem_cons_of_mem _ hy)
      rcases List.mem_append.mp hx with h | h
      · exact byteToBits_lt_two_fin ⟨b, hb⟩ x h
      · exact ih hrest x h

theorem bits_to_bytes_cons8 (l rest : List Nat) (hl : l.length = 8) :
    bits_to_bytes (l ++ rest) = bitsToByte l :: bits_to_bytes rest := by
  rcases l with _ | ⟨b0, l⟩; · simp at hl
  rcases l with _ | ⟨b1, l⟩; · simp at hl
  rcases l with _ | ⟨b2, l⟩; · simp at hl
  rcases l with _ | ⟨b3, l⟩; · simp at hl
  rcases l with _ | ⟨b4, l⟩; · simp at hl
  rcases l with _ | ⟨b5, l⟩; · simp at hl
  rcases l with _ | ⟨b6, l⟩; · simp at hl
  rcases l with _ | ⟨b7, l⟩; · simp at hl
  rcases l with _ | ⟨b8, l⟩
  · rfl
  · simp only [List.length_cons] at hl; omega

/-- C3: round-trip of the bit conversion layer. -/
theorem c3_bits_bytes_roundtrip (B : List Nat) (hB : ∀ b ∈ B, b < 256) :
    bits_to_bytes (bytes_to_bits B) = B := by
  induction B with
  | nil => rfl
  | cons b rest ih =>
      have hb : b < 256 := hB b (List.mem_cons_self b rest)
      have hrest : ∀ x ∈ rest, x < 256 := fun x hx => hB x (List.mem_cons_of_mem _ hx)
      show bits_to_bytes (byteToBits b ++ bytes_to_bits rest) = b :: rest
      rw [bits_to_bytes_cons8 _ _ (byteToBits_length b hb), ih hrest,
        bitsToByte_byteToBits b hb]

theorem bytes_to_bits_get : ∀ (B : List Nat), (∀ b ∈ B, b < 256) →
    ∀ i, ∀ h : i < B.length,
      ((bytes_to_bits B).drop (8 * i)).take 8 = specByteBitsMSB (B.get ⟨i, h⟩) := by
  intro B
  induction B with
  | nil => intro _ i h; exact absurd h (Nat.not_lt_zero i)
  | cons b rest ih =>
      intro hB i h
      have hb : b < 256 := hB b (List.mem_cons_self b rest)
      have hrest : ∀ x ∈ rest, x < 256 := fun x hx => hB x (List.mem_cons_of_mem _ hx)
      match i with
      | 0 =>
          show ((byteToBits b ++ bytes_to_bits rest).drop 0).take 8 = specByteBitsMSB b
          rw [List.drop_zero, List.take_left' (byteToBits_length b hb),
            byteToBits_eq_spec b hb]
      | i + 1 =>
          show ((byteToBits b ++ bytes_to_bits rest).drop (8 * (i + 1))).take 8 = _
          have h8 : 8 * (i + 1) = (byteToBits b).length + 8 * i := by
            rw [byteToBits_length b hb]; ring
          rw [h8, List.drop_append]
          exact ih hrest i (Nat.lt_of_succ_lt_succ h)

/-! ### Embedder lemmas -/

theorem embedBits_length : ∀ (p m : List Nat), (embedBits p m).length = p.length
  | p, [] => by cases p <;> rfl
  | [], _ :: _ => rfl
  | p :: ps, b :: bs => by simp [embedBits, embedBits_length ps bs]

theorem embedBits_getD_lt : ∀ (p m : List Nat) (i : Nat), i < m.length →
    m.length ≤ p.length →
    (embedBits p m).getD i 0 = ((p.getD i 0) &&& 254) ||| (m.getD i 0)
  | _, [], i, hi, _ => by simp at hi
  | [], _ :: _, _, _, hlen => by simp at hlen
  | _ :: _, _ :: _, 0, _, _ => rfl
  | _ :: ps, _ :: bs, i + 1, hi, hlen => by
      simpa [embedBits] using
        embedBits_getD_lt ps bs i (by simpa using hi) (by simpa using hlen)

theorem embedBits_getD_ge : ∀ (p m : List Nat) (i : Nat), m.length ≤ i →
    (embedBits p m).getD i 0 = p.getD i 0
  | p, [], _, _ => by cases p <;> rfl
  | [], _ :: _, _, _ => rfl
  | _ :: _, _ :: _, 0, h => by simp at h
  | _ :: ps, _ :: bs, i + 1, h => by
      simpa [embedBits] using embedBits_getD_ge ps bs i (by simpa using h)

/-! ### Claim theorems: bit codec and embedder -/

/-- C3: for every byte sequence `B`, `bits_to_bytes (bytes_to_bits B) = B`. -/
theorem c3_roundtrip (B : List Nat) (hB : ∀ b ∈ B, b < 256) :
    bits_to_bytes (bytes_to_bits B) = B :=
  c3_bits_bytes_roundtrip B hB

theorem c3_roundtrip_witness :
    bits_to_bytes (bytes_to_bits [0, 97, 124, 255]) = [0, 97, 124, 255] :=
  c3_roundtrip [0, 97, 124, 255] (by decide)

/-- C9: `bytes_to_bits` is total (a Lean `def` on all byte lists), its
output has length exactly `8 *` the input length, and the `i`-th 8-bit
group of the output is the most-significant-bit-first expansion of the
`i`-th input byte, so the groups are concatenated in input order. -/
theorem c9_bytes_to_bits_spec (B : List Nat) (hB : ∀ b ∈ B, b < 256) :
    (bytes_to_bits B).length = 8 * B.length ∧
    ∀ i, ∀ h : i < B.length,
      ((bytes_to_bits B).drop (8 * i)).take 8 = specByteBitsMSB (B.get ⟨i, h⟩) :=
  ⟨bytes_to_bits_length B hB, bytes_to_bits_get B hB⟩

theorem c9_bytes_to_bits_spec_witness :
    (bytes_to_bits [5, 200]).length = 8 * ([5, 200] : List Nat).length ∧
    ∀ i, ∀ h : i < ([5, 200] : List Nat).length,
      ((bytes_to_bits [5, 200]).drop (8 * i)).take 8 =
        specByteBitsMSB (([5, 200] : List Nat).get ⟨i, h⟩) :=
  c9_bytes_to_bits_spec [5, 200] (by decide)

/-- C4: with the framed payload's bit length exactly the sample count the
capacity check passes and encoding succeeds; with a larger bit length the
encoder fails with `CapacityExceeded`, and the failure value carries no
pixel buffer at all: the check precedes the embedding loop, so no sample is
written. -/
theorem c4_capacity (pixels payload : List Nat) :
    ((bytes_to_bits payload).length = pixels.length →
      encodeCore pixels payload = .ok (embedBits pixels (bytes_to_bits payload))) ∧
    ((bytes_to_bits payload).length > pixels.length →
      encodeCore pixels payload = .fail .capacityExceeded) := by
  constructor
  · intro h
    unfold encodeCore
    simp [h]
  · intro h
    unfold encodeCore
    simp [h]

theorem c4_capacity_witness :
    encodeCore (List.replicate 8 0) [0] =
      .ok (embedBits (List.replicate 8 0) (bytes_to_bits [0])) ∧
    encodeCore (List.replicate 7 0) [0] = .fail .capacityExceeded :=
  ⟨(c4_capacity (List.replicate 8 0) [0]).1 (by decide),
   (c4_capacity (List.replicate 7 0) [0]).2 (by decide)⟩

/-- C5: a successful embed rewrites sample `i` to
`(pixels[i] & 0xFE) | bits[i]` for `i < len(bits)` and leaves every later
sample unchanged (stated via `getD`, with the length preserved). -/
theorem c5_embed (p m : List Nat) (hlen : m.length ≤ p.length) :
    (embedBits p m).length = p.length ∧
    (∀ i, i < m.length →
      (embedBits p m).getD i 0 = ((p.getD i 0) &&& 254) ||| (m.getD i 0)) ∧
    (∀ i, m.length ≤ i → i < p.length → (embedBits p m).getD i 0 = p.getD i 0) :=
  ⟨embedBits_length p m,
   fun i hi => embedBits_getD_lt p m i hi hlen,
   fun i hi _ => embedBits_getD_ge p m i hi⟩

theorem c5_embed_witness :
    (embedBits [6, 7, 8] [1]).length = 3 ∧
    (∀ i, i < ([1] : List Nat).length →
      (embedBits [6, 7, 8] [1]).getD i 0 =
        ((([6, 7, 8] : List Nat).getD i 0) &&& 254) ||| (([1] : List Nat).getD i 0)) ∧
    (∀ i, ([1] : List Nat).length ≤ i → i < ([6, 7, 8] : List Nat).length →
      (embedBits [6, 7, 8] [1]).getD i 0 = ([6, 7, 8] : List Nat).getD i 0) :=
  c5_embed [6, 7, 8] [1] (by decide)

/-- C2 (divergence evidence): with carrier path `c.jpg` and output path
`s.png` the extension check of line 83 passes — the code rejects only when
NEITHER path ends in `.png`/`.bmp`, although its own error message demands
that both do — so `encode_file` proceeds: with an empty pixel buffer it
reaches the capacity check, and with a 40-sample buffer it embeds and
returns a stego buffer to be written, never `UnsupportedFormat`. -/
theorem c2_jpg_carrier_not_rejected :
    encode_file [99, 46, 106, 112, 103] [115, 46, 112, 110, 103] [] [] [] =
      .fail .capacityExceeded ∧
    encode_file [99, 46, 106, 112, 103] [115, 46, 112, 110, 103] [] []
        (List.replicate 40 0) =
      .ok (embedBits (List.replicate 40 0) (bytes_to_bits (buildPayload [] []))) := by
  decide

/-! ### Extractor lemmas -/

theorem scanAux_cons (acc : List Nat) (p : Nat) (ps : List Nat) :
    scanAux acc (p :: ps) =
      if 32 ≤ (acc ++ [p &&& 1]).length ∧ lastN 32 (acc ++ [p &&& 1]) = markerBits then
        some ((acc ++ [p &&& 1]).take ((acc ++ [p &&& 1]).length - 32))
      else scanAux (acc ++ [p &&& 1]) ps := rfl

theorem scanAux_none (ps : List Nat) : ∀ (acc : List Nat),
    (∀ m, acc.length < m → m ≤ acc.length + ps.length → 32 ≤ m →
      lastN 32 ((acc ++ ps.map (· &&& 1)).take m) ≠ markerBits) →
    scanAux acc ps = none := by
  induction ps with
  | nil => intro acc _; rfl
  | cons p ps ih =>
      intro acc h
      have hs : acc ++ (p :: ps).map (· &&& 1) =
          (acc ++ [p &&& 1]) ++ ps.map (· &&& 1) := by simp
      have htake : (acc ++ (p :: ps).map (· &&& 1)).take (acc ++ [p &&& 1]).length =
          acc ++ [p &&& 1] := by
        rw [hs]; exact List.take_left _ _
      have hcond : ¬(32 ≤ (acc ++ [p &&& 1]).length ∧
          lastN 32 (acc ++ [p &&& 1]) = markerBits) := by
        rintro ⟨hc1, hc2⟩
        refine h (acc ++ [p &&& 1]).length (by simp) (by simp) hc1 ?_
        rw [htake]; exact hc2
      rw [scanAux_cons, if_neg hcond]
      refine ih (acc ++ [p &&& 1]) ?_
      intro m h1 h2 h32
      rw [← hs]
      refine h m (by simp at h1 ⊢; omega) (by simp at h2 ⊢; omega) h32

theorem scanAux_some (ps : List Nat) : ∀ (acc : List Nat) (n : Nat),
    acc.length < n → n ≤ acc.length + ps.length → 32 ≤ n →
    lastN 32 ((acc ++ ps.map (· &&& 1)).take n) = markerBits →
    (∀ m, acc.length < m → m < n → 32 ≤ m →
      lastN 32 ((acc ++ ps.map (· &&& 1)).take m) ≠ markerBits) →
    scanAux acc ps = some ((acc ++ ps.map (· &&& 1)).take (n - 32)) := by
  induction ps with
  | nil =>
      intro acc n h1 h2 _ _ _
      exfalso; simp at h2; omega
  | cons p ps ih =>
      intro acc n h1 h2 h32 hmatch hmin
      have hs : acc ++ (p :: ps).map (· &&& 1) =
          (acc ++ [p &&& 1]) ++ ps.map (· &&& 1) := by simp
      have hlen2 : (acc ++ [p &&& 1]).length = acc.length + 1 := by simp
      have htake : (acc ++ (p :: ps).map (· &&& 1)).take (acc ++ [p &&& 1]).length =
          acc ++ [p &&& 1] := by
        rw [hs]; exact List.take_left _ _
      rw [scanAux_cons]
      by_cases hcase : n = acc.length + 1
      · have htaken : (acc ++ (p :: ps).map (· &&& 1)).take n = acc ++ [p &&& 1] := by
          rw [← htake, hlen2, hcase]
        have hcond : 32 ≤ (acc ++ [p &&& 1]).length ∧
            lastN 32 (acc ++ [p &&& 1]) = markerBits := by
          refine ⟨by omega, ?_⟩
          rw [← htaken]; exact hmatch
        rw [if_pos hcond]
        have htk : (acc ++ (p :: ps).map (· &&& 1)).take (n - 32) =
            (acc ++ [p &&& 1]).take (n - 32) := by
          rw [← htaken, List.take_take, Nat.min_eq_left (by omega)]
        rw [htk, hlen2, ← hcase]
      · have hgt : (acc ++ [p &&& 1]).length < n := by omega
        have hcond : ¬(32 ≤ (acc ++ [p &&& 1]).length ∧
            lastN 32 (acc ++ [p &&& 1]) = markerBits) := by
          rintro ⟨hc1, hc2⟩
          refine hmin (acc ++ [p &&& 1]).length (by omega) (by omega) hc1 ?_
          rw [htake]; exact hc2
        rw [if_neg hcond, hs]
        refine ih (acc ++ [p &&& 1]) n hgt (by simp at h2 ⊢; omega) h32
          (by rw [← hs]; exact hmatch) ?_
        intro m hm1 hm2 hm3
        rw [← hs]
        exact hmin m (by omega) hm2 hm3

/-! ### Claim theorems: extractor -/

/-- C6: the scan stops at the earliest position `n` at which the trailing
32 accumulated LSBs equal the marker bits, the extracted payload is the
accumulated stream with the final 32 bits removed, and `decode_file` then
parses exactly that payload. -/
theorem c6_earliest_match (pixels : List Nat) (n : Nat) (h32 : 32 ≤ n)
    (hle : n ≤ pixels.length)
    (hmatch : lastN 32 ((pixels.map (· &&& 1)).take n) = markerBits)
    (hmin : ∀ m, 32 ≤ m → m < n →
      lastN 32 ((pixels.map (· &&& 1)).take m) ≠ markerBits) :
    scanForMarker pixels = some ((pixels.map (· &&& 1)).take (n - 32)) ∧
    decode_file pixels =
      parsePayload (bits_to_bytes ((pixels.map (· &&& 1)).take (n - 32))) := by
  have hscan : scanForMarker pixels = some ((pixels.map (· &&& 1)).take (n - 32)) := by
    have := scanAux_some pixels [] n (by simp; omega) (by simp [hle]) h32
      (by simpa using hmatch)
      (fun m hm0 hmn hm32 => by simpa using hmin m hm32 hmn)
    simpa [scanForMarker] using this
  exact ⟨hscan, by simp [decode_file, hscan]⟩

theorem c6_earliest_match_witness :
    scanForMarker markerBits = some ((markerBits.map (· &&& 1)).take (32 - 32)) ∧
    decode_file markerBits =
      parsePayload (bits_to_bytes ((markerBits.map (· &&& 1)).take (32 - 32))) :=
  c6_earliest_match markerBits 32 (by decide) (by decide) (by decide)
    (fun m h1 h2 => by omega)

/-- C7: when no 32-bit window of the LSB stream equals the marker bits the
scan exhausts every sample and `decode_file` fails with the
marker-not-found diagnostic (`return False`). -/
theorem c7_marker_not_found (pixels : List Nat)
    (h : ∀ n, 32 ≤ n → n ≤ pixels.length →
      lastN 32 ((pixels.map (· &&& 1)).take n) ≠ markerBits) :
    decode_file pixels = .fail .markerNotFound := by
  have hscan : scanForMarker pixels = none := by
    refine scanAux_none pixels [] ?_
    intro m _ h2 h32
    simpa using h m h32 (by simpa using h2)
  simp [decode_file, hscan]

theorem c7_marker_not_found_witness :
    decode_file (List.replicate 33 0) = .fail .markerNotFound :=
  c7_marker_not_found (List.replicate 33 0) (by
    intro n h1 h2
    simp only [List.length_replicate] at h2
    interval_cases n <;> decide)

/-- C10: with fewer than 32 samples the 32-bit marker comparison is never
attempted, so `decode_file` always fails with marker-not-found, whatever
the sample values. -/
theorem c10_short_buffer (pixels : List Nat) (h : pixels.length < 32) :
    decode_file pixels = .fail .markerNotFound := by
  have hscan : scanForMarker pixels = none := by
    refine scanAux_none pixels [] ?_
    intro m _ h2 h32
    exfalso; simp at h2; omega
  simp [decode_file, hscan]

theorem c10_short_buffer_witness :
    decode_file (List.replicate 31 255) = .fail .markerNotFound :=
  c10_short_buffer (List.replicate 31 255) (by decide)

/-! ### Round-trip lemmas -/

theorem lsb_of_embed (p b : Nat) (hb : b < 2) : ((p &&& 254) ||| b) &&& 1 = b := by
  interval_cases b
  · rw [Nat.or_zero, Nat.land_assoc]
    have h254 : (254 &&& 1 : Nat) = 0 := by decide
    rw [h254, Nat.and_zero]
  · simp [Nat.and_one_is_mod, Nat.or_mod_two_eq_one]

theorem embedBits_lsb_stream : ∀ (pixels bits : List Nat), (∀ b ∈ bits, b < 2) →
    bits.length ≤ pixels.length →
    (embedBits pixels bits).map (· &&& 1) =
      bits ++ (pixels.drop bits.length).map (· &&& 1)
  | pixels, [], _, _ => by cases pixels <;> simp [embedBits]
  | [], _ :: _, _, hlen => by simp at hlen
  | p :: ps, b :: bs, hb, hlen => by
      have hb0 : b < 2 := hb b (List.mem_cons_self b bs)
      have hbs : ∀ x ∈ bs, x < 2 := fun x hx => hb x (List.mem_cons_of_mem _ hx)
      show (((p &&& 254) ||| b) :: embedBits ps bs).map (· &&& 1) =
        (b :: bs) ++ ((p :: ps).drop (b :: bs).length).map (· &&& 1)
      simp only [List.map_cons, List.length_cons, List.drop_succ_cons, List.cons_append]
      rw [lsb_of_embed p b hb0,
        embedBits_lsb_stream ps bs hbs (by simpa using hlen)]

theorem lastN_append_marker (x : List Nat) : lastN 32 (x ++ markerBits) = markerBits := by
  unfold lastN
  have h32 : markerBits.length = 32 := by decide
  rw [List.length_append, h32]
  have he : x.length + 32 - 32 = x.length := by omega
  rw [he, List.drop_left]

theorem firstIdx_append_sep (fname rest : List Nat) (h : SEPARATOR ∉ fname) :
    firstIdx (fname ++ SEPARATOR :: rest) SEPARATOR = some fname.length := by
  induction fname with
  | nil => simp [firstIdx]
  | cons b bs ih =>
      have hb : ¬(b = SEPARATOR) := fun he => h (he ▸ List.mem_cons_self b bs)
      have hbs : SEPARATOR ∉ bs := fun hm => h (List.mem_cons_of_mem _ hm)
      simp [firstIdx, hb, ih hbs]

theorem parsePayload_frame (fname content : List Nat) (hnosep : SEPARATOR ∉ fname)
    (hutf8 : utf8Valid fname = true) :
    parsePayload (fname ++ SEPARATOR :: content) = .ok fname content := by
  unfold parsePayload
  rw [firstIdx_append_sep fname content hnosep]
  have htake : (fname ++ SEPARATOR :: content).take fname.length = fname :=
    List.take_left fname _
  have hdrop : (fname ++ SEPARATOR :: content).drop (fname.length + 1) = content := by
    have he : fname ++ SEPARATOR :: content = (fname ++ [SEPARATOR]) ++ content := by
      simp
    rw [he, List.drop_left' (by simp)]
  simp [htake, hdrop, hutf8]

/-! ### Claim C1 -/

/-- C1 is refuted by this concrete run: a 96-sample buffer holds the
96-bit framed payload for filename `a` and content `xEND!y` exactly
(encoding succeeds), yet decoding stops at the accidental byte-aligned
`END!` occurrence inside the content and returns content `x` instead of
`xEND!y`. -/
theorem c1_counterexample :
    encodeCore (List.replicate 96 0) (buildPayload [97] [120, 69, 78, 68, 33, 121]) =
      .ok (embedBits (List.replicate 96 0)
        (bytes_to_bits (buildPayload [97] [120, 69, 78, 68, 33, 121]))) ∧
    decode_file (embedBits (List.replicate 96 0)
        (bytes_to_bits (buildPayload [97] [120, 69, 78, 68, 33, 121]))) =
      .ok [97] [120] ∧
    ([120] : List Nat) ≠ [120, 69, 78, 68, 33, 121] := by decide

/-- C1 (amended): decoding an encoded buffer recovers the filename and
content exactly, for any pixel buffer of sufficient capacity and any
filename and content bytes, provided the filename contains no separator
byte and is valid UTF-8 and no proper prefix of the framed payload's bit
stream already ends in the 32 marker bits (content containing `END!` at a
bit-aligned interior position violates that proviso and is truncated). -/
theorem c1_roundtrip_amended (pixels fileName secretData : List Nat)
    (hfb : ∀ b ∈ fileName, b < 256) (hcb : ∀ b ∈ secretData, b < 256)
    (hnosep : SEPARATOR ∉ fileName)
    (hutf8 : utf8Valid fileName = true)
    (hcap : (bytes_to_bits (buildPayload fileName secretData)).length ≤ pixels.length)
    (hnocol : ∀ n, 32 ≤ n →
      n < (bytes_to_bits (buildPayload fileName secretData)).length →
      lastN 32 ((bytes_to_bits (buildPayload fileName secretData)).take n) ≠ markerBits) :
    decode_file (embedBits pixels (bytes_to_bits (buildPayload fileName secretData))) =
      .ok fileName secretData := by
  have hm32 : markerBits.length = 32 := by decide
  have hprebytes : ∀ b ∈ fileName ++ [SEPARATOR] ++ secretData, b < 256 := by
    intro b hb
    rcases List.mem_append.mp hb with h | h
    · rcases List.mem_append.mp h with h | h
      · exact hfb b h
      · simp only [List.mem_singleton] at h
        subst h; decide
    · exact hcb b h
  have hpayload : ∀ b ∈ buildPayload fileName secretData, b < 256 := by
    intro b hb
    unfold buildPayload at hb
    rcases List.mem_append.mp hb with h | h
    · exact hprebytes b h
    · have hm : b = 69 ∨ b = 78 ∨ b = 68 ∨ b = 33 := by
        simpa [END_FILE_MARKER] using h
      rcases hm with rfl | rfl | rfl | rfl <;> decide
  have hbitslt : ∀ x ∈ bytes_to_bits (buildPayload fileName secretData), x < 2 :=
    bytes_to_bits_lt_two _ hpayload
  have hsplit : bytes_to_bits (buildPayload fileName secretData) =
      bytes_to_bits (fileName ++ [SEPARATOR] ++ secretData) ++ markerBits :=
    bytes_to_bits_append (fileName ++ [SEPARATOR] ++ secretData) END_FILE_MARKER
  have hplen5 : 5 ≤ (buildPayload fileName secretData).length := by
    simp [buildPayload, END_FILE_MARKER]
    omega
  have hN : (bytes_to_bits (buildPayload fileName secretData)).length =
      8 * (buildPayload fileName secretData).length :=
    bytes_to_bits_length _ hpayload
  have hN32 : 32 ≤ (bytes_to_bits (buildPayload fileName secretData)).length := by
    omega
  have hblen : (bytes_to_bits (buildPayload fileName secretData)).length =
      (bytes_to_bits (fileName ++ [SEPARATOR] ++ secretData)).length + 32 := by
    rw [hsplit, List.length_append, hm32]
  have hstream : (embedBits pixels (bytes_to_bits (buildPayload fileName secretData))).map
        (· &&& 1) =
      bytes_to_bits (buildPayload fileName secretData) ++
        (pixels.drop (bytes_to_bits (buildPayload fileName secretData)).length).map
          (· &&& 1) :=
    embedBits_lsb_stream pixels _ hbitslt hcap
  have hmatchN : lastN 32
      (((embedBits pixels (bytes_to_bits (buildPayload fileName secretData))).map
          (· &&& 1)).take (bytes_to_bits (buildPayload fileName secretData)).length) =
      markerBits := by
    rw [hstream, List.take_left]
    rw [hsplit]
    exact lastN_append_marker _
  have hminS : ∀ m, 32 ≤ m →
      m < (bytes_to_bits (buildPayload fileName secretData)).length →
      lastN 32
        (((embedBits pixels (bytes_to_bits (buildPayload fileName secretData))).map
            (· &&& 1)).take m) ≠ markerBits := by
    intro m h1 h2
    rw [hstream, List.take_append_of_le_length (Nat.le_of_lt h2)]
    exact hnocol m h1 h2
  have hscan : scanForMarker
        (embedBits pixels (bytes_to_bits (buildPayload fileName secretData))) =
      some (((embedBits pixels (bytes_to_bits (buildPayload fileName secretData))).map
          (· &&& 1)).take
        ((bytes_to_bits (buildPayload fileName secretData)).length - 32)) := by
    have hres := scanAux_some
      (embedBits pixels (bytes_to_bits (buildPayload fileName secretData))) []
      (bytes_to_bits (buildPayload fileName secretData)).length
      (by simp; omega)
      (by simpa [embedBits_length] using hcap)
      hN32
      (by simpa using hmatchN)
      (fun m hm0 hmn hm32 => by simpa using hminS m hm32 hmn)
    simpa [scanForMarker] using hres
  have hpreLen : (bytes_to_bits (fileName ++ [SEPARATOR] ++ secretData)).length =
      (bytes_to_bits (buildPayload fileName secretData)).length - 32 := by omega
  have hfinal : ((embedBits pixels (bytes_to_bits (buildPayload fileName secretData))).map
        (· &&& 1)).take ((bytes_to_bits (buildPayload fileName secretData)).length - 32) =
      bytes_to_bits (fileName ++ [SEPARATOR] ++ secretData) := by
    rw [hstream,
      List.take_append_of_le_length
        (show (bytes_to_bits (buildPayload fileName secretData)).length - 32 ≤
          (bytes_to_bits (buildPayload fileName secretData)).length by omega),
      ← hpreLen, hsplit]
    exact List.take_left _ _
  have hdec : decode_file
        (embedBits pixels (bytes_to_bits (buildPayload fileName secretData))) =
      parsePayload (bits_to_bytes
        (((embedBits pixels (bytes_to_bits (buildPayload fileName secretData))).map
            (· &&& 1)).take
          ((bytes_to_bits (buildPayload fileName secretData)).length - 32))) := by
    simp [decode_file, hscan]
  rw [hdec, hfinal, c3_bits_bytes_roundtrip _ hprebytes]
  have hfr : fileName ++ [SEPARATOR] ++ secretData = fileName ++ SEPARATOR :: secretData := by
    simp
  rw [hfr]
  exact parsePayload_frame fileName secretData hnosep hutf8

theorem c1_roundtrip_amended_witness :
    decode_file (embedBits (List.replicate 56 7) (bytes_to_bits (buildPayload [97] [98]))) =
      .ok [97] [98] :=
  c1_roundtrip_amended (List.replicate 56 7) [97] [98] (by decide) (by decide)
    (by decide) (by decide) (by decide)
    (fun n h1 h2 => by
      have hb : ∀ m, m < (bytes_to_bits (buildPayload [97] [98])).length →
          32 ≤ m → lastN 32 ((bytes_to_bits (buildPayload [97] [98])).take m) ≠
            markerBits := by decide
      exact hb n h2 h1)

/-! ### Claim C8 -/

/-- C8 is refuted by this concrete run: the LSB stream carries the payload
bytes `FF 7C` followed by the end marker, the byte before the first
separator (`0xFF`) is not valid UTF-8, and `decode_file` ends in the
uncaught `UnicodeDecodeError` (`exn`) rather than in the typed
`CorruptPayload` failure result. -/
theorem c8_counterexample :
    decode_file (bytes_to_bits [255, 124, 69, 78, 68, 33]) = .exn ∧
    DecodeResult.exn ≠ .fail .corruptPayload := by decide

/-- C8 (amended): after a successful marker scan, a payload with no
separator byte yields the typed `CorruptPayload` failure, while a payload
whose bytes before the first separator are not valid UTF-8 makes
`decode_file` raise an uncaught `UnicodeDecodeError` (the decode call sits
outside the `try`/`except`), not a typed failure. -/
theorem c8_invalid_utf8_raises (pixels pb : List Nat)
    (hscan : scanForMarker pixels = some pb) :
    (firstIdx (bits_to_bytes pb) SEPARATOR = none →
      decode_file pixels = .fail .corruptPayload) ∧
    (∀ i, firstIdx (bits_to_bytes pb) SEPARATOR = some i →
      utf8Valid ((bits_to_bytes pb).take i) = false →
      decode_file pixels = .exn) := by
  constructor
  · intro hidx
    simp [decode_file, hscan, parsePayload, hidx]
  · intro i hidx hbad
    simp [decode_file, hscan, parsePayload, hidx, hbad]

theorem c8_invalid_utf8_raises_witness :
    decode_file markerBits = .fail .corruptPayload ∧
    decode_file (bytes_to_bits [255, 124, 69, 78, 68, 33]) = .exn :=
  ⟨(c8_invalid_utf8_raises markerBits [] (by decide)).1 (by decide),
   (c8_invalid_utf8_raises (bytes_to_bits [255, 124, 69, 78, 68, 33])
      [1, 1, 1, 1, 1, 1, 1, 1, 0, 1, 1, 1, 1, 1, 0, 0] (by decide)).2 1
     (by decide) (by decide)⟩

end Stego
